import Mathlib

/-
Verification of the static suite/test tree synthesizer in
`packages/vitest/src/typecheck/collect.ts`.

The development shallowly embeds the pure core of `collectTests`:
 * an AST node model mirroring the acorn node shapes the code inspects,
 * `getName` (callee base-name resolution),
 * the CallExpression visitor body (call-site classification),
 * `getNodeAsString` and `mergeTemplateLiteral` (name resolution),
 * the offset-based tree builder (`updateLatestSuite` and the fold over
   the sorted definition list),
 * the Vite-6 `__vite_ssr_identity__` unwrapping rewrite (line 55).

JavaScript strings in mode position are modeled as Lean `String`s; machine
integers do not occur (all offsets are non-negative array indices).
-/

namespace VitestCollect

/-- JS slice of the source text, by code-unit offsets, as used in
`code.slice(node.start, node.end)`. -/
def strSlice (code : String) (s e : Nat) : String :=
  String.mk ((code.toList.drop s).take (e - s))

/-- Model of `String.prototype.startsWith`. -/
def strStartsWith (s p : String) : Bool :=
  s.toList.take p.toList.length == p.toList

/-- Execution mode of a definition.  At runtime the code stores the raw
accessed-property string (`'run'`, `'skip'`, `'only'`, `'todo'`, ...), so the
embedding uses `String`. -/
abbrev Mode := String

/-- The two declaration kinds, `'test' | 'suite'` in the source. -/
inductive DefType where
  | test
  | suite
deriving DecidableEq

/-- Structure `LocalCallDefinition` from collect.ts (sans the `task` back-pointer,
which is write-only during tree building). -/
structure LocalCallDefinition where
  start : Nat
  endO : Nat
  name : String
  type : DefType
  mode : Mode
deriving DecidableEq

/-- Acorn AST node shapes distinguished by the code.  Every node carries its
`start`/`end` offsets.  `literal` carries both the stringified runtime value
(`String(node.value)`) and the raw source text (`node.raw`); `template`
carries the raw quasi strings and the interpolated expressions; `other`
stands for any node shape the code does not inspect structurally. -/
inductive Node where
  | ident (start endO : Nat) (name : String)
  | literal (start endO : Nat) (value raw : String)
  | template (start endO : Nat) (quasis : List String) (exprs : List Node)
  | member (start endO : Nat) (obj prop : Node)
  | call (start endO : Nat) (callee : Node) (args : List Node)
  | tagged (start endO : Nat) (tag : Node)
  | other (start endO : Nat)

/-- Start offset of a node. -/
def nStart : Node → Nat
  | .ident s _ _ => s
  | .literal s _ _ _ => s
  | .template s _ _ _ => s
  | .member s _ _ _ => s
  | .call s _ _ _ => s
  | .tagged s _ _ => s
  | .other s _ => s

/-- End offset of a node. -/
def nEnd : Node → Nat
  | .ident _ e _ => e
  | .literal _ e _ _ => e
  | .template _ e _ _ => e
  | .member _ e _ _ => e
  | .call _ e _ _ => e
  | .tagged _ e _ => e
  | .other _ e => e

/-- Function `getName` from collect.ts: resolve the callee's base identifier.
For a member expression the code reads `callee.object?.name?.startsWith`
(only an identifier object has a `.name`) and otherwise recurses into
`callee.object?.property` (only a member object has a `.property`);
a missing field makes the recursive call return `null`. -/
def getName : Node → Option String
  | .ident _ _ n => some n
  | .call _ _ callee _ => getName callee
  | .tagged _ _ tag => getName tag
  | .member _ _ obj prop =>
    match obj with
    | .ident _ _ objName =>
      if strStartsWith objName "__vite_ssr_" then getName prop else none
    | .member _ _ _ objProp => getName objProp
    | _ => none
  | _ => none

/-- Reading `callee?.property?.name`: defined only when the callee is a member
expression whose property is an identifier. -/
def calleeProp : Node → Option String
  | .member _ _ _ (.ident _ _ propName) => some propName
  | _ => none

mutual

/-- Function `getNodeAsString` from collect.ts. -/
def getNodeAsString (node : Node) (code : String) : String :=
  match node with
  | .literal _ _ value _ => value
  | .ident _ _ n => n
  | .template _ _ quasis exprs => mergeTemplateLiteral quasis exprs code
  | n => strSlice code (nStart n) (nEnd n)

/-- Function `mergeTemplateLiteral` from collect.ts: the loop walks the quasis and
consumes one expression per iteration while any remain (acorn arrays are
dense, so `expressionsIndex in node.expressions` is an index-bound check).
A literal expression renders by its raw text, a nested template literal is
re-wrapped in backticks, anything else by `getNodeAsString`. -/
def mergeTemplateLiteral (quasis : List String) (exprs : List Node) (code : String) : String :=
  match quasis, exprs with
  | [], _ => ""
  | q :: qs, [] => q ++ mergeTemplateLiteral qs [] code
  | q :: qs, expr :: es =>
    let s := match expr with
      | .literal _ _ _ raw => raw
      | e => getNodeAsString e code
    let piece := match expr with
      | .template _ _ _ _ => "$\x7b`" ++ s ++ "`\x7d"
      | _ => "$\x7b" ++ s ++ "\x7d"
    q ++ piece ++ mergeTemplateLiteral qs es code

end

/-- The CallExpression visitor body from collect.ts, lines 100-148: decide
whether this call declares a test/suite and produce its definition record. -/
def classify (code : String) : Node → Option LocalCallDefinition
  | .call nodeStart nodeEnd callee args =>
    match getName callee with
    | none => none
    | some name =>
      if !(["it", "test", "describe", "suite"].contains name) then none
      else
        let mode : Mode := match calleeProp callee with
          | none => "run"
          | some p => if p = name then "run" else p
        if ["each", "skipIf", "runIf", "for"].contains mode then none
        else
          let start : Nat := match callee with
            | .call _ calleeEnd _ _ => calleeEnd
            | .tagged _ calleeEnd _ => calleeEnd + 1
            | _ => nodeStart
          match args with
          | [] => none
          | messageNode :: _ =>
            some { start := start
                   endO := nodeEnd
                   name := getNodeAsString messageNode code
                   type := if name = "it" ∨ name = "test" then .test else .suite
                   mode := mode }
  | _ => none

/-- A materialized tree node (`ParsedTest` / `ParsedSuite`): name, resolved
mode and source range; suites additionally own their ordered children. -/
inductive PTask where
  | test (name : String) (mode : Mode) (start endO : Nat)
  | suite (name : String) (mode : Mode) (start endO : Nat) (tasks : List PTask)

/-- Start offset of a materialized node. -/
def tStart : PTask → Nat
  | .test _ _ s _ => s
  | .suite _ _ s _ _ => s

/-- End offset of a materialized node. -/
def tEnd : PTask → Nat
  | .test _ _ _ e => e
  | .suite _ _ _ e _ => e

/-- Mode of a materialized node. -/
def tMode : PTask → Mode
  | .test _ m _ _ => m
  | .suite _ m _ _ _ => m

/-- An open suite during tree building: its identity data plus the children
materialized into it so far.  The bottom frame of the stack is the file. -/
structure Frame where
  name : String
  mode : Mode
  start : Nat
  endO : Nat
  tasks : List PTask

/-- Close an open suite frame: materialize it as a suite node appended to
its parent's children (in the source this already happened by mutation when
the suite was pushed; functionally the merge is performed on ascent). -/
def closeInto (parent child : Frame) : Frame :=
  { parent with
    tasks := parent.tasks ++ [.suite child.name child.mode child.start child.endO child.tasks] }

/-- Function `updateLatestSuite` from collect.ts: ascend the parent links while the
cursor has a parent (`lastSuite.suite`) and its end offset is below the
index.  The stack is (cursor, strict ancestors bottom-ward); the file root
is the last element and is never popped. -/
def updateLatestSuite : Frame → List Frame → Nat → Frame × List Frame
  | top, [], _ => (top, [])
  | top, parent :: rest, index =>
    if top.endO < index then updateLatestSuite (closeInto parent top) rest index
    else (top, parent :: rest)

/-- Body of the `forEach` over sorted definitions in collect.ts: ascend to
the enclosing suite, force its mode when it is not `'run'`, materialize the
node; a suite becomes the new cursor. -/
def processDefinition (st : Frame × List Frame) (d : LocalCallDefinition) : Frame × List Frame :=
  let (cur, rest) := updateLatestSuite st.1 st.2 d.start
  let mode := if cur.mode ≠ "run" then cur.mode else d.mode
  match d.type with
  | .test => ({ cur with tasks := cur.tasks ++ [.test d.name mode d.start d.endO] }, rest)
  | .suite => (⟨d.name, mode, d.start, d.endO, []⟩, cur :: rest)

/-- Close every remaining open suite at the end of the fold, down to the
file root. -/
def closeAll : Frame → List Frame → Frame
  | top, [] => top
  | top, parent :: rest => closeAll (closeInto parent top) rest

/-- The sort `definitions.sort((a, b) => a.start - b.start)`: stable sort by start
offset. -/
def sortDefinitions (defs : List LocalCallDefinition) : List LocalCallDefinition :=
  List.insertionSort (fun a b => a.start ≤ b.start) defs

/-- The file frame: name is the relative path, mode `'run'`, range the whole
program (collect.ts lines 60-72). -/
def fileFrame (name : String) (start endO : Nat) : Frame :=
  ⟨name, "run", start, endO, []⟩

/-- The tree-building phase of `collectTests` (lines 150-202): sort the
definitions, fold them into the frame stack, close all open suites. -/
def buildFile (file : Frame) (defs : List LocalCallDefinition) : Frame :=
  let st := (sortDefinitions defs).foldl processDefinition (file, [])
  closeAll st.1 st.2

/-- View a frame as a suite node. -/
def toTask (f : Frame) : PTask :=
  .suite f.name f.mode f.start f.endO f.tasks

/-- The whole pre-Finalizer tree produced for a file. -/
def collectTree (name : String) (start endO : Nat) (defs : List LocalCallDefinition) : PTask :=
  toTask (buildFile (fileFrame name start endO) defs)

mutual

/-- Number of nodes in a subtree (the node itself plus all descendants). -/
def taskCount : PTask → Nat
  | .test _ _ _ _ => 1
  | .suite _ _ _ _ ts => 1 + forestCount ts

/-- Total node count of a forest. -/
def forestCount : List PTask → Nat
  | [] => 0
  | t :: ts => taskCount t + forestCount ts

end

mutual

/-- Mode-inheritance invariant: below any suite whose resolved mode is not
`'run'`, every direct child carries exactly the suite's mode. -/
def forcedAll : PTask → Bool
  | .test _ _ _ _ => true
  | .suite _ m _ _ ts =>
    (m == "run" || ts.all fun t => tMode t == m) && forestForcedAll ts

/-- Conjunction of `forcedAll` over a forest. -/
def forestForcedAll : List PTask → Bool
  | [] => true
  | t :: ts => forcedAll t && forestForcedAll ts

end

mutual

/-- Only-inheritance: every direct child of a suite whose resolved mode is
`'only'` also has mode `'only'`. -/
def onlyForcedAll : PTask → Bool
  | .test _ _ _ _ => true
  | .suite _ m _ _ ts =>
    (m != "only" || ts.all fun t => tMode t == "only") && forestOnlyForcedAll ts

/-- Conjunction of `onlyForcedAll` over a forest. -/
def forestOnlyForcedAll : List PTask → Bool
  | [] => true
  | t :: ts => onlyForcedAll t && forestOnlyForcedAll ts

end

/-- Pairwise in-order disjointness of sibling ranges: each node ends before
every later sibling starts. -/
def siblingsDisjoint : List PTask → Bool
  | [] => true
  | t :: ts => (ts.all fun u => tEnd t < tStart u) && siblingsDisjoint ts

mutual

/-- The range invariant of the spec: every child's range is strictly inside
its parent's, and sibling ranges are pairwise disjoint, recursively. -/
def treeWF : PTask → Bool
  | .test _ _ _ _ => true
  | .suite _ _ s e ts =>
    (ts.all fun t => s < tStart t && tEnd t < e) && siblingsDisjoint ts && forestWF ts

/-- Conjunction of `treeWF` over a forest. -/
def forestWF : List PTask → Bool
  | [] => true
  | t :: ts => treeWF t && forestWF ts

end

/-- Written from the spec's words for §4.3 (refinement target, not from the
code): the cursor ascends "while the cursor's end offset is less than the
CallSite's start offset, stopping at the File root"; the open-suite chain is
abstracted to its end offsets, root last. -/
def specNearestOpen : List Nat → Nat → List Nat
  | [], _ => []
  | [rootEnd], _ => [rootEnd]
  | e :: es, index => if e < index then specNearestOpen es index else e :: es

/-- Total number of tree nodes an intermediate builder state will produce:
materialized children of every frame, plus one node per open non-root
frame. -/
def stackCount (top : Frame) (ps : List Frame) : Nat :=
  forestCount top.tasks + (ps.map fun f => forestCount f.tasks + 1).sum

/-- End offset of the bottom (file root) frame of the stack. -/
def stackBotEnd (top : Frame) (ps : List Frame) : Nat :=
  match ps with
  | [] => top.endO
  | parent :: rest => stackBotEnd parent rest

/-- Two call sites as an AST yields them: source ranges are either disjoint
or strictly nested, and a range nested inside another belongs to a call
nested below it, so the outer one declares a suite whenever anything nests
inside it. -/
def laminarOK (a b : LocalCallDefinition) : Bool :=
  (a.endO < b.start) || (b.endO < a.start) ||
  (a.start < b.start && b.endO < a.endO && a.type == DefType.suite) ||
  (b.start < a.start && a.endO < b.endO && b.type == DefType.suite)

/-- Pairwise check over a definition list. -/
def pairwiseB (r : LocalCallDefinition → LocalCallDefinition → Bool) :
    List LocalCallDefinition → Bool
  | [] => true
  | d :: ds => ds.all (r d) && pairwiseB r ds

/-- Definition lists obtainable from a well-formed AST whose declarations
nest only below suite declarations: every range strictly inside the file's
range and properly ordered, ranges pairwise laminar. -/
def defsWellFormed (s e : Nat) (defs : List LocalCallDefinition) : Bool :=
  (defs.all fun d => s < d.start && d.endO < e && d.start ≤ d.endO) &&
  pairwiseB laminarOK defs

/-- Invariant carried through the builder fold: `top :: ps` is the open
suite chain (cursor first, file root last) and `rem` the definitions not
yet processed. -/
structure BuildInv (top : Frame) (ps : List Frame) (rem : List LocalCallDefinition) : Prop where
  chain : List.Chain' (fun ab be => be.start < ab.start ∧ ab.endO < be.endO) (top :: ps)
  childIn : ∀ f ∈ top :: ps, ∀ t ∈ f.tasks, f.start < tStart t ∧ tEnd t < f.endO
  childOrd : ∀ f ∈ top :: ps, List.Pairwise (fun a b => tEnd a < tStart b) f.tasks
  childWF : ∀ f ∈ top :: ps, ∀ t ∈ f.tasks, treeWF t = true
  gap : List.Chain' (fun ab be => ∀ t ∈ be.tasks, tEnd t < ab.start) (top :: ps)
  remTasks : ∀ d ∈ rem, ∀ f ∈ top :: ps, ∀ t ∈ f.tasks, tEnd t < d.start
  remFrames : ∀ d ∈ rem, ∀ f ∈ top :: ps, d.start ≤ f.endO → f.start < d.start ∧ d.endO < f.endO
  remRoot : ∀ d ∈ rem, d.start ≤ stackBotEnd top ps
  remSorted : List.Pairwise (fun a b => a.start < b.start) rem
  remLam : List.Pairwise (fun a b => laminarOK a b = true) rem
  remBounds : ∀ d ∈ rem, d.start ≤ d.endO

/-- Mode-resolution invariant carried through the builder fold: every open
frame already satisfies the forcing rule on its materialized children, each
open child frame of a non-`run` frame carries the parent's mode, and all
materialized subtrees satisfy the forcing rule. -/
def ModeInv (top : Frame) (ps : List Frame) : Prop :=
  (∀ f ∈ top :: ps, f.mode ≠ "run" → ∀ t ∈ f.tasks, tMode t = f.mode)
  ∧ List.Chain' (fun ab be => be.mode ≠ "run" → ab.mode = be.mode) (top :: ps)
  ∧ (∀ f ∈ top :: ps, forestForcedAll f.tasks = true)

/-- Name of a materialized node. -/
def tName : PTask → String
  | .test n _ _ _ => n
  | .suite n _ _ _ _ => n

/-- The claim's mode-resolution rule for one child under an enclosing suite
of resolved mode `m`: if `m` is not `run` the child carries `m`; otherwise
the child carries the declared mode of its originating call site — exhibited
as a definition in `all` with the child's exact source range and name whose
declared mode is the child's mode. -/
def childJust (all : List LocalCallDefinition) (m : Mode) (t : PTask) : Prop :=
  (m ≠ "run" → tMode t = m)
  ∧ (m = "run" → ∃ d ∈ all, tStart t = d.start ∧ tEnd t = d.endO
      ∧ tName t = d.name ∧ tMode t = d.mode)

mutual

/-- Both branches of the mode-resolution rule hold at every suite of the
tree, for every child. -/
def JustTree (all : List LocalCallDefinition) : PTask → Prop
  | .test _ _ _ _ => True
  | .suite _ m _ _ ts => (∀ t ∈ ts, childJust all m t) ∧ JustForest all ts

/-- Conjunction of `JustTree` over a forest. -/
def JustForest (all : List LocalCallDefinition) : List PTask → Prop
  | [] => True
  | t :: ts => JustTree all t ∧ JustForest all ts

end

/-- Mode-justification invariant carried through the builder fold: every
frame's materialized children satisfy the resolution rule against the
frame's own mode, all materialized subtrees satisfy it recursively, open
child frames of a non-`run` frame carry the parent's mode, and every open
non-root frame is justified by a call site in `all` whose declared mode it
carries whenever the frame below it is in `run` mode. -/
def JustInv (all : List LocalCallDefinition) (top : Frame) (ps : List Frame) : Prop :=
  (∀ f ∈ top :: ps, ∀ t ∈ f.tasks, childJust all f.mode t)
  ∧ (∀ f ∈ top :: ps, ∀ t ∈ f.tasks, JustTree all t)
  ∧ List.Chain' (fun ab be => be.mode ≠ "run" → ab.mode = be.mode) (top :: ps)
  ∧ List.Chain' (fun ab be => ∃ d ∈ all, ab.start = d.start ∧ ab.endO = d.endO
      ∧ ab.name = d.name ∧ (be.mode = "run" → ab.mode = d.mode)) (top :: ps)

/-- Word-character class of the regular expression on line 55. -/
def isWordChar (c : Char) : Bool :=
  c.isAlphanum || c == '_'

/-- The literal part `__vite_ssr_identity__(` of the pattern. -/
def identityPat : List Char :=
  "__vite_ssr_identity__(".toList

/-- Match a literal character sequence at the head of the input, returning
the remainder on success. -/
def matchLiteral : List Char → List Char → Option (List Char)
  | [], l => some l
  | _ :: _, [] => none
  | p :: ps, c :: cs => if c == p then matchLiteral ps cs else none

/-- Greedy `\w+`-style split: the maximal word-character run and the rest. -/
def spanWord : List Char → List Char × List Char
  | [] => ([], [])
  | c :: cs =>
    if isWordChar c then
      let r := spanWord cs
      (c :: r.1, r.2)
    else ([], c :: cs)

/-- Match `/__vite_ssr_identity__\((\w+\.\w+)\)/` at the head of the input:
on success, the captured group `\w+\.\w+` and the remainder after `)`.
Greedy `\w+` needs no backtracking here because `.` and `)` are not word
characters. -/
def matchIdentityAt (l : List Char) : Option (List Char × List Char) :=
  match matchLiteral identityPat l with
  | none => none
  | some l1 =>
    let w1 := (spanWord l1).1
    let r1 := (spanWord l1).2
    if w1.length = 0 then none
    else
      match r1 with
      | '.' :: r2 =>
        let w2 := (spanWord r2).1
        let r3 := (spanWord r2).2
        if w2.length = 0 then none
        else
          match r3 with
          | ')' :: rest => some (w1 ++ '.' :: w2, rest)
          | _ => none
      | _ => none

/-- The replacement `'(                     $1)'` (21 spaces) instantiated
with the captured group. -/
def replacementFor (g1 : List Char) : List Char :=
  '(' :: (List.replicate 21 ' ' ++ g1 ++ [')'])

/-- Model of `String.prototype.replace` with a global regex: scan left to right,
rewrite each leftmost match and resume after it. -/
def replaceIdentity : List Char → List Char
  | [] => []
  | c :: cs =>
    match h : matchIdentityAt (c :: cs) with
    | some (g1, rest) => replacementFor g1 ++ replaceIdentity rest
    | none => c :: replaceIdentity cs
termination_by l => l.length
decreasing_by
  · have hml : ∀ pat l rest, matchLiteral pat l = some rest →
        l.length = pat.length + rest.length := by
      intro pat
      induction pat with
      | nil => intro l rest hm; cases hm; simp [matchLiteral] at *
      | cons p ps ih =>
        intro l rest hm
        cases l with
        | nil => simp [matchLiteral] at hm
        | cons c cs =>
          simp only [matchLiteral] at hm
          split at hm
          · have := ih cs rest hm
            simp [this]
            omega
          · exact absurd hm (by simp)
    have hsw : ∀ l : List Char, (spanWord l).1 ++ (spanWord l).2 = l := by
      intro l
      induction l with
      | nil => simp [spanWord]
      | cons c cs ih =>
        simp only [spanWord]
        split
        · simpa using ih
        · simp
    simp only [matchIdentityAt] at h
    split at h
    · exact absurd h (by simp)
    next l1 hm1 =>
      have h1 : (c :: cs).length = identityPat.length + l1.length :=
        hml identityPat (c :: cs) l1 hm1
      have hlen1 : (spanWord l1).1.length + (spanWord l1).2.length = l1.length := by
        have := congrArg List.length (hsw l1)
        simpa using this
      split at h
      · exact absurd h (by simp)
      · split at h
        next r2 hr1 =>
          have hlen2 : (spanWord r2).1.length + (spanWord r2).2.length = r2.length := by
            have := congrArg List.length (hsw r2)
            simpa using this
          split at h
          · exact absurd h (by simp)
          · split at h
            next rest0 hr3 =>
              cases h
              have hr1l : (spanWord l1).2.length = r2.length + 1 := by
                rw [hr1]; simp
              have hr3l : (spanWord r2).2.length = rest.length + 1 := by
                rw [hr3]; simp
              have hpl : identityPat.length = 22 := by decide
              simp only [List.length_cons] at h1 ⊢
              omega
            · exact absurd h (by simp)
        · exact absurd h (by simp)
  · simp

/-- Line 55 of collect.ts: `request.code.replace(/__vite_ssr_identity__\((\w+\.\w+)\)/g, '(                     $1)')`. -/
def unwrapViteSsrIdentity (code : String) : String :=
  String.mk (replaceIdentity code.toList)

theorem matchLiteral_length :
    ∀ pat l rest : List Char, matchLiteral pat l = some rest →
      l.length = pat.length + rest.length := by
  intro pat
  induction pat with
  | nil =>
    intro l rest hm
    cases hm
    simp [matchLiteral] at *
  | cons p ps ih =>
    intro l rest hm
    cases l with
    | nil => simp [matchLiteral] at hm
    | cons c cs =>
      simp only [matchLiteral] at hm
      split at hm
      · have := ih cs rest hm
        simp [this]
        omega
      · exact absurd hm (by simp)

theorem spanWord_eq_append : ∀ l : List Char, (spanWord l).1 ++ (spanWord l).2 = l := by
  intro l
  induction l with
  | nil => simp [spanWord]
  | cons c cs ih =>
    simp only [spanWord]
    split
    · simpa using ih
    · simp

theorem matchIdentityAt_length {l g1 rest : List Char}
    (h : matchIdentityAt l = some (g1, rest)) :
    l.length = 23 + g1.length + rest.length := by
  simp only [matchIdentityAt] at h
  split at h
  · exact absurd h (by simp)
  next l1 hm1 =>
    have h1 : l.length = identityPat.length + l1.length :=
      matchLiteral_length identityPat l l1 hm1
    have hlen1 : (spanWord l1).1.length + (spanWord l1).2.length = l1.length := by
      have := congrArg List.length (spanWord_eq_append l1)
      simpa using this
    split at h
    · exact absurd h (by simp)
    · split at h
      next r2 hr1 =>
        have hlen2 : (spanWord r2).1.length + (spanWord r2).2.length = r2.length := by
          have := congrArg List.length (spanWord_eq_append r2)
          simpa using this
        split at h
        · exact absurd h (by simp)
        · split at h
          next rest0 hr3 =>
            cases h
            have hr1l : (spanWord l1).2.length = r2.length + 1 := by
              rw [hr1]; simp
            have hr3l : (spanWord r2).2.length = rest.length + 1 := by
              rw [hr3]; simp
            have hpl : identityPat.length = 22 := by decide
            simp only [List.length_append, List.length_cons]
            omega
          · exact absurd h (by simp)
      · exact absurd h (by simp)

theorem replacementFor_length (g1 : List Char) :
    (replacementFor g1).length = 23 + g1.length := by
  simp [replacementFor]
  omega

theorem replaceIdentity_length : ∀ l : List Char, (replaceIdentity l).length = l.length := by
  intro l
  induction l using replaceIdentity.induct with
  | case1 => simp [replaceIdentity]
  | case2 c cs g1 rest h ih =>
    rw [replaceIdentity, h]
    have hm := matchIdentityAt_length h
    have hr := replacementFor_length g1
    simp only [List.length_append, ih]
    omega
  | case3 c cs h ih =>
    rw [replaceIdentity, h]
    simp [ih]

/-- Claim C10: the Vite-6 identity unwrapping rewrite on line 55 is
length-preserving: for every input the rewritten code has exactly the same
length, and each replaced span `__vite_ssr_identity__(w.w)` is rewritten to
a segment of exactly its own length, so every character outside the
replaced spans keeps its offset. -/
theorem C10_length_preserving :
    (∀ code : String, (unwrapViteSsrIdentity code).length = code.length)
  ∧ (∀ l g1 rest : List Char, matchIdentityAt l = some (g1, rest) →
      (replacementFor g1).length + rest.length = l.length) := by
  constructor
  · intro code
    show (replaceIdentity code.toList).length = code.length
    rw [replaceIdentity_length]
    rfl
  · intro l g1 rest h
    have h1 := matchIdentityAt_length h
    have h2 := replacementFor_length g1
    omega

/-- Witness for C10 at a concrete input containing one match. -/
theorem C10_length_preserving_witness :
    (unwrapViteSsrIdentity "x__vite_ssr_identity__(a.b)y").length
      = ("x__vite_ssr_identity__(a.b)y" : String).length
  ∧ (replacementFor "a.b".toList).length + "y".toList.length
      = "__vite_ssr_identity__(a.b)y".toList.length :=
  ⟨C10_length_preserving.1 _, C10_length_preserving.2 _ _ _ (by decide)⟩

/-- Claim C9: a call expression with no first (name) argument is discarded
entirely by the classifier — no call site is produced, hence no tree node,
and no error is raised (every branch returns, `classify` is total). -/
theorem C9_missing_name_discard :
    ∀ (code : String) (s e : Nat) (callee : Node),
      classify code (.call s e callee []) = none := by
  intro code s e callee
  cases hgn : getName callee with
  | none => simp [classify, hgn]
  | some n =>
    simp only [classify, hgn]
    split
    · rfl
    · split
      · rfl
      · rfl

/-- Claim C8: a call whose resolved base name is one of the four
declaration keywords but whose accessed property is a parameterization or
guard modifier (`each`, `skipIf`, `runIf`, `for`) is never classified. -/
theorem C8_guard_rejection :
    ∀ (code : String) (s e : Nat) (callee : Node) (args : List Node) (n p : String),
      getName callee = some n →
      n ∈ ["it", "test", "describe", "suite"] →
      calleeProp callee = some p →
      p ∈ ["each", "skipIf", "runIf", "for"] →
      classify code (.call s e callee args) = none := by
  intro code s e callee args n p hn hnmem hp hpmem
  simp only [List.mem_cons, List.not_mem_nil, or_false] at hnmem hpmem
  rcases hnmem with rfl | rfl | rfl | rfl <;>
    rcases hpmem with rfl | rfl | rfl | rfl <;>
      simp [classify, hn, hp]

/-- Witness for C8: `__vite_ssr_import_0__.test.each([...])(...)`'s inner
wrapper call is rejected. -/
theorem C8_guard_rejection_witness :
    classify ""
      (.call 0 20
        (.member 0 9 (.member 0 7 (.ident 0 1 "__vite_ssr_import_0__") (.ident 2 5 "test"))
          (.ident 8 9 "each"))
        [.other 10 19]) = none :=
  C8_guard_rejection "" 0 20 _ _ "test" "each" rfl (by decide) rfl (by decide)

/-- Claim C7: whenever a call is classified, its effective end offset is the
call node's end, and its effective start offset is the callee's end for a
chained (call) callee, one past the callee's end for a tagged-template
callee, and the call node's start otherwise. -/
theorem C7_offsets :
    ∀ (code : String) (s e : Nat) (callee : Node) (args : List Node)
      (df : LocalCallDefinition),
      classify code (.call s e callee args) = some df →
      df.endO = e ∧
      df.start = (match callee with
        | .call _ calleeEnd _ _ => calleeEnd
        | .tagged _ calleeEnd _ => calleeEnd + 1
        | _ => s) := by
  intro code s e callee args df h
  simp only [classify] at h
  split at h
  · exact absurd h (by simp)
  · split at h
    · exact absurd h (by simp)
    · split at h
      · exact absurd h (by simp)
      · split at h
        · exact absurd h (by simp)
        · cases h
          exact ⟨rfl, rfl⟩

/-- Witness for C7 at a chained `each` declaration call. -/
theorem C7_offsets_witness :
    (⟨12, 40, getNodeAsString (.other 13 20) "", DefType.test, "run"⟩ : LocalCallDefinition).endO = 40
  ∧ (⟨12, 40, getNodeAsString (.other 13 20) "", DefType.test, "run"⟩ : LocalCallDefinition).start = 12 :=
  C7_offsets "" 0 40
    (.call 2 12 (.member 0 9 (.member 0 7 (.ident 0 1 "__vite_ssr_import_0__") (.ident 2 5 "test"))
      (.ident 8 9 "each")) [.other 10 11])
    [.other 13 20] _ rfl

/-- Claim C3: on the compiler-transformed declaration shapes —
`ns.test(name, fn)` (direct call through a `__vite_ssr_` namespace),
`ns.test.skip(name, fn)`, `ns.describe.only(name, fn)` and chained
`ns.test.each([...])(name, fn)` — the classifier yields a call site with
the expected kind (`test` for it/test, `suite` for describe/suite) and
mode; in general the mode is `run` when the accessed property is absent or
equal to the base name, and the property name otherwise. -/
theorem C3_classifier_shapes :
    (∀ (code ns : String) (s e ms me os oe ps pe : Nat) (msg : Node) (rest : List Node),
      strStartsWith ns "__vite_ssr_" = true →
      classify code (.call s e
          (.member ms me (.ident os oe ns) (.ident ps pe "test")) (msg :: rest))
        = some ⟨s, e, getNodeAsString msg code, .test, "run"⟩)
  ∧ (∀ (code ns : String) (s e ms me ns2 ne2 os oe ps pe qs qe : Nat)
        (msg : Node) (rest : List Node),
      classify code (.call s e
          (.member ms me (.member ns2 ne2 (.ident os oe ns) (.ident ps pe "test"))
            (.ident qs qe "skip")) (msg :: rest))
        = some ⟨s, e, getNodeAsString msg code, .test, "skip"⟩)
  ∧ (∀ (code ns : String) (s e ms me ns2 ne2 os oe ps pe qs qe : Nat)
        (msg : Node) (rest : List Node),
      classify code (.call s e
          (.member ms me (.member ns2 ne2 (.ident os oe ns) (.ident ps pe "describe"))
            (.ident qs qe "only")) (msg :: rest))
        = some ⟨s, e, getNodeAsString msg code, .suite, "only"⟩)
  ∧ (∀ (code ns : String) (s e cs ce ms me ns2 ne2 os oe ps pe qs qe : Nat)
        (eachArgs : List Node) (msg : Node) (rest : List Node),
      classify code (.call s e
          (.call cs ce
            (.member ms me (.member ns2 ne2 (.ident os oe ns) (.ident ps pe "test"))
              (.ident qs qe "each")) eachArgs) (msg :: rest))
        = some ⟨ce, e, getNodeAsString msg code, .test, "run"⟩)
  ∧ (∀ (code : String) (s e : Nat) (callee : Node) (args : List Node)
        (df : LocalCallDefinition),
      classify code (.call s e callee args) = some df →
      ∃ n, getName callee = some n ∧
        df.mode = (match calleeProp callee with
          | none => "run"
          | some p => if p = n then "run" else p)) := by
  refine ⟨?_, ?_, ?_, ?_, ?_⟩
  · intro code ns s e ms me os oe ps pe msg rest hns
    simp [classify, getName, calleeProp, hns]
  · intro code ns s e ms me ns2 ne2 os oe ps pe qs qe msg rest
    rfl
  · intro code ns s e ms me ns2 ne2 os oe ps pe qs qe msg rest
    rfl
  · intro code ns s e cs ce ms me ns2 ne2 os oe ps pe qs qe eachArgs msg rest
    rfl
  · intro code s e callee args df h
    simp only [classify] at h
    split at h
    · exact absurd h (by simp)
    next n hn =>
      refine ⟨n, hn, ?_⟩
      split at h
      · exact absurd h (by simp)
      · split at h
        · exact absurd h (by simp)
        · split at h
          · exact absurd h (by simp)
          · cases h
            rfl

/-- Witness for C3 at concrete transformed declaration calls. -/
theorem C3_classifier_shapes_witness :
    classify "" (.call 0 30
        (.member 0 5 (.ident 0 1 "__vite_ssr_import_0__") (.ident 2 5 "test"))
        [.literal 6 9 "n" "x", .other 10 29])
      = some ⟨0, 30, getNodeAsString (.literal 6 9 "n" "x") "", .test, "run"⟩
  ∧ (∃ n, getName (.member 0 5 (.ident 0 1 "__vite_ssr_import_0__") (.ident 2 5 "test"))
        = some n ∧
      (⟨0, 30, getNodeAsString (.literal 6 9 "n" "x") "", DefType.test, "run"⟩
          : LocalCallDefinition).mode
        = (match calleeProp (.member 0 5 (.ident 0 1 "__vite_ssr_import_0__")
            (.ident 2 5 "test")) with
          | none => "run"
          | some p => if p = n then "run" else p)) :=
  ⟨C3_classifier_shapes.1 "" "__vite_ssr_import_0__" 0 30 0 5 0 1 2 5 _ _ (by decide),
   C3_classifier_shapes.2.2.2.2 "" 0 30 _
     [.literal 6 9 "n" "x", .other 10 29] _ rfl⟩

/-- Claim C6: the name resolver interleaves template quasis with
placeholders: a generic interpolated expression renders as the dollar-brace
wrapping of its verbatim source slice, a nested template literal renders
with its recursively merged contents between backticks, and concretely
`` it(`a${1+1}b`, () => {}) `` is classified with name `a${1+1}b` (the
source text of `1+1`, not its value). -/
theorem C6_template_names :
    (∀ (s e os oe : Nat) (q0 q1 : String) (code : String),
      getNodeAsString (.template s e [q0, q1] [.other os oe]) code
        = q0 ++ "$\x7b" ++ strSlice code os oe ++ "\x7d" ++ q1)
  ∧ (∀ (s e ts te : Nat) (qs : List String) (es2 : List Node) (q0 q1 : String)
        (code : String),
      getNodeAsString (.template s e [q0, q1] [.template ts te qs es2]) code
        = q0 ++ "$\x7b`" ++ mergeTemplateLiteral qs es2 code ++ "`\x7d" ++ q1)
  ∧ classify "it(`a$\x7b1+1\x7db`, () => \x7b\x7d)"
      (.call 0 24 (.ident 0 2 "it")
        [.template 3 13 ["a", "b"] [.other 7 10], .other 15 23])
      = some ⟨0, 24, "a$\x7b1+1\x7db", .test, "run"⟩ := by
  refine ⟨?_, ?_, ?_⟩
  · intro s e os oe q0 q1 code
    simp only [getNodeAsString, mergeTemplateLiteral, nStart, nEnd]
    simp [String.append_assoc]
  · intro s e ts te qs es2 q0 q1 code
    simp only [getNodeAsString, mergeTemplateLiteral]
    simp [String.append_assoc]
  · simp only [classify, getName, calleeProp, getNodeAsString, mergeTemplateLiteral,
      strSlice, nStart, nEnd]
    decide

theorem updateLatestSuite_ends :
    ∀ (ps : List Frame) (top : Frame) (index : Nat),
      List.map Frame.endO
          ((updateLatestSuite top ps index).1 :: (updateLatestSuite top ps index).2)
        = specNearestOpen (List.map Frame.endO (top :: ps)) index := by
  intro ps
  induction ps with
  | nil =>
    intro top index
    simp [updateLatestSuite, specNearestOpen]
  | cons parent rest ih =>
    intro top index
    simp only [updateLatestSuite, List.map_cons, specNearestOpen]
    split
    · have := ih (closeInto parent top) index
      simpa [closeInto] using this
    · rfl

theorem updateLatestSuite_stops :
    ∀ (ps : List Frame) (top : Frame) (index : Nat),
      (updateLatestSuite top ps index).2 = []
        ∨ index ≤ (updateLatestSuite top ps index).1.endO := by
  intro ps
  induction ps with
  | nil => intro top index; exact Or.inl rfl
  | cons parent rest ih =>
    intro top index
    simp only [updateLatestSuite]
    split
    · exact ih (closeInto parent top) index
    · right
      show index ≤ top.endO
      omega

theorem forestCount_append :
    ∀ (l : List PTask) (x : PTask), forestCount (l ++ [x]) = forestCount l + taskCount x := by
  intro l x
  induction l with
  | nil => simp [forestCount]
  | cons t ts ih => simp [forestCount, ih]; omega

theorem stackCount_closeInto (parent top : Frame) (rest : List Frame) :
    stackCount (closeInto parent top) rest = stackCount top (parent :: rest) := by
  simp [stackCount, closeInto, forestCount_append, taskCount]
  omega

theorem updateLatestSuite_count :
    ∀ (ps : List Frame) (top : Frame) (index : Nat),
      stackCount (updateLatestSuite top ps index).1 (updateLatestSuite top ps index).2
        = stackCount top ps := by
  intro ps
  induction ps with
  | nil => intro top index; rfl
  | cons parent rest ih =>
    intro top index
    simp only [updateLatestSuite]
    split
    · rw [ih (closeInto parent top) index, stackCount_closeInto]
    · rfl

theorem processDefinition_count (st : Frame × List Frame) (d : LocalCallDefinition) :
    stackCount (processDefinition st d).1 (processDefinition st d).2
      = stackCount st.1 st.2 + 1 := by
  have hu := updateLatestSuite_count st.2 st.1 d.start
  rcases hcur : updateLatestSuite st.1 st.2 d.start with ⟨cur, rest⟩
  rw [hcur] at hu
  simp only [processDefinition, hcur]
  cases d.type
  · simp only []
    rw [← hu]
    simp [stackCount, forestCount_append, taskCount]
    omega
  · simp only []
    rw [← hu]
    simp [stackCount, forestCount]
    omega

theorem foldl_count :
    ∀ (defs : List LocalCallDefinition) (st : Frame × List Frame),
      stackCount (List.foldl processDefinition st defs).1
          (List.foldl processDefinition st defs).2
        = stackCount st.1 st.2 + defs.length := by
  intro defs
  induction defs with
  | nil => intro st; simp
  | cons d ds ih =>
    intro st
    simp only [List.foldl_cons, List.length_cons]
    rw [ih (processDefinition st d), processDefinition_count]
    omega

theorem closeAll_count :
    ∀ (ps : List Frame) (top : Frame),
      forestCount (closeAll top ps).tasks = stackCount top ps := by
  intro ps
  induction ps with
  | nil => intro top; simp [closeAll, stackCount]
  | cons parent rest ih =>
    intro top
    simp only [closeAll]
    rw [ih (closeInto parent top), stackCount_closeInto]

/-- Claim C4: the builder's cursor ascent refines the spec's description —
viewed on end offsets it drops open suites exactly while the cursor's end
offset is below the call site's start, stopping at the file root, so the
cursor lands on the nearest still-open ancestor whose end offset is at
least the start (unless only the root remains); and every classified call
site is materialized into exactly one suite's children: the finished tree
holds exactly one node per classified definition, none dropped. -/
theorem C4_attachment :
    (∀ (top : Frame) (ps : List Frame) (index : Nat),
      List.map Frame.endO
          ((updateLatestSuite top ps index).1 :: (updateLatestSuite top ps index).2)
        = specNearestOpen (List.map Frame.endO (top :: ps)) index)
  ∧ (∀ (top : Frame) (ps : List Frame) (index : Nat),
      (updateLatestSuite top ps index).2 = []
        ∨ index ≤ (updateLatestSuite top ps index).1.endO)
  ∧ (∀ (name : String) (s e : Nat) (defs : List LocalCallDefinition),
      forestCount (buildFile (fileFrame name s e) defs).tasks = defs.length) := by
  refine ⟨fun top ps index => updateLatestSuite_ends ps top index,
          fun top ps index => updateLatestSuite_stops ps top index,
          fun name s e defs => ?_⟩
  simp only [buildFile]
  rw [closeAll_count, foldl_count]
  simp [stackCount, fileFrame, forestCount, sortDefinitions]

theorem forestForcedAll_append (l : List PTask) (x : PTask) :
    forestForcedAll (l ++ [x]) = (forestForcedAll l && forcedAll x) := by
  induction l with
  | nil => simp [forestForcedAll]
  | cons t ts ih => simp [forestForcedAll, ih, Bool.and_assoc]

theorem forcedAll_suite_iff (n : String) (m : Mode) (s e : Nat) (ts : List PTask) :
    forcedAll (.suite n m s e ts) = true ↔
      ((m = "run" ∨ ∀ t ∈ ts, tMode t = m) ∧ forestForcedAll ts = true) := by
  simp [forcedAll, List.all_eq_true]

theorem closeInto_modeInv {top parent : Frame} {rest : List Frame}
    (h : ModeInv top (parent :: rest)) : ModeInv (closeInto parent top) rest := by
  obtain ⟨hfl, hch, hff⟩ := h
  have hrel : parent.mode ≠ "run" → top.mode = parent.mode := (List.chain'_cons.mp hch).1
  have hsuite : forcedAll (.suite top.name top.mode top.start top.endO top.tasks) = true := by
    rw [forcedAll_suite_iff]
    refine ⟨?_, hff top (by simp)⟩
    by_cases hm : top.mode = "run"
    · exact Or.inl hm
    · exact Or.inr (hfl top (by simp) hm)
  refine ⟨?_, ?_, ?_⟩
  · intro f hf hmode t ht
    rcases List.mem_cons.mp hf with rfl | hf
    · rcases List.mem_append.mp ht with ht | ht
      · exact hfl parent (by simp) hmode t ht
      · have : t = .suite top.name top.mode top.start top.endO top.tasks := by
          simpa using ht
        subst this
        show top.mode = parent.mode
        exact hrel hmode
    · exact hfl f (by simp [hf]) hmode t ht
  · rcases rest with _ | ⟨q, rest'⟩
    · simp
    · have h2 := (List.chain'_cons.mp hch).2
      exact List.chain'_cons.mpr ⟨(List.chain'_cons.mp h2).1, (List.chain'_cons.mp h2).2⟩
  · intro f hf
    rcases List.mem_cons.mp hf with rfl | hf
    · show forestForcedAll (parent.tasks ++ [_]) = true
      rw [forestForcedAll_append]
      simp only [Bool.and_eq_true]
      exact ⟨hff parent (by simp), hsuite⟩
    · exact hff f (by simp [hf])

theorem updateLatestSuite_modeInv :
    ∀ (ps : List Frame) (top : Frame) (index : Nat), ModeInv top ps →
      ModeInv (updateLatestSuite top ps index).1 (updateLatestSuite top ps index).2 := by
  intro ps
  induction ps with
  | nil => intro top index h; exact h
  | cons parent rest ih =>
    intro top index h
    simp only [updateLatestSuite]
    split
    · exact ih (closeInto parent top) index (closeInto_modeInv h)
    · exact h

theorem processDefinition_modeInv (st : Frame × List Frame) (d : LocalCallDefinition)
    (h : ModeInv st.1 st.2) :
    ModeInv (processDefinition st d).1 (processDefinition st d).2 := by
  have h1 := updateLatestSuite_modeInv st.2 st.1 d.start h
  rcases hcur : updateLatestSuite st.1 st.2 d.start with ⟨cur, rest⟩
  rw [hcur] at h1
  obtain ⟨hfl, hch, hff⟩ := h1
  simp only [processDefinition, hcur]
  cases d.type
  · refine ⟨?_, ?_, ?_⟩
    · intro f hf hmode t ht
      rcases List.mem_cons.mp hf with rfl | hf
      · rcases List.mem_append.mp ht with ht | ht
        · exact hfl cur (by simp) hmode t ht
        · have : t = .test d.name (if cur.mode ≠ "run" then cur.mode else d.mode)
              d.start d.endO := by simpa using ht
          subst this
          show (if cur.mode ≠ "run" then cur.mode else d.mode) = cur.mode
          exact if_pos hmode
      · exact hfl f (by simp [hf]) hmode t ht
    · rcases rest with _ | ⟨q, rest'⟩
      · simp
      · exact List.chain'_cons.mpr ⟨(List.chain'_cons.mp hch).1, (List.chain'_cons.mp hch).2⟩
    · intro f hf
      rcases List.mem_cons.mp hf with rfl | hf
      · show forestForcedAll (cur.tasks ++ [_]) = true
        rw [forestForcedAll_append]
        simp only [Bool.and_eq_true]
        exact ⟨hff cur (by simp), rfl⟩
      · exact hff f (by simp [hf])
  · refine ⟨?_, ?_, ?_⟩
    · intro f hf hmode t ht
      rcases List.mem_cons.mp hf with rfl | hf
      · simp at ht
      · exact hfl f hf hmode t ht
    · refine List.chain'_cons.mpr ⟨?_, hch⟩
      intro hmode
      show (if cur.mode ≠ "run" then cur.mode else d.mode) = cur.mode
      exact if_pos hmode
    · intro f hf
      rcases List.mem_cons.mp hf with rfl | hf
      · rfl
      · exact hff f hf

theorem foldl_modeInv :
    ∀ (defs : List LocalCallDefinition) (st : Frame × List Frame), ModeInv st.1 st.2 →
      ModeInv (List.foldl processDefinition st defs).1
        (List.foldl processDefinition st defs).2 := by
  intro defs
  induction defs with
  | nil => intro st h; exact h
  | cons d ds ih =>
    intro st h
    exact ih (processDefinition st d) (processDefinition_modeInv st d h)

theorem closeAll_modeInv :
    ∀ (ps : List Frame) (top : Frame), ModeInv top ps → ModeInv (closeAll top ps) [] := by
  intro ps
  induction ps with
  | nil => intro top h; exact h
  | cons parent rest ih =>
    intro top h
    exact ih (closeInto parent top) (closeInto_modeInv h)

theorem modeInv_init (name : String) (s e : Nat) : ModeInv (fileFrame name s e) [] := by
  refine ⟨?_, ?_, ?_⟩
  · intro f hf hmode t ht
    have : f = fileFrame name s e := by simpa using hf
    subst this
    simp [fileFrame] at ht
  · simp
  · intro f hf
    have : f = fileFrame name s e := by simpa using hf
    subst this
    rfl

theorem collectTree_forcedAll (name : String) (s e : Nat)
    (defs : List LocalCallDefinition) :
    forcedAll (collectTree name s e defs) = true := by
  have hfold := foldl_modeInv (sortDefinitions defs) (fileFrame name s e, [])
    (modeInv_init name s e)
  have hfin := closeAll_modeInv _ _ hfold
  obtain ⟨hfl, _, hff⟩ := hfin
  show forcedAll (toTask (closeAll _ _)) = true
  rw [toTask, forcedAll_suite_iff]
  refine ⟨?_, hff _ (by simp)⟩
  by_cases hm : (closeAll (List.foldl processDefinition (fileFrame name s e, []) (sortDefinitions defs)).1 (List.foldl processDefinition (fileFrame name s e, []) (sortDefinitions defs)).2).mode = "run"
  · exact Or.inl hm
  · exact Or.inr (hfl _ (by simp) hm)

theorem chain'_replace_head {R : Frame → Frame → Prop} {a a' : Frame} {l : List Frame}
    (h : List.Chain' R (a :: l)) (hrep : ∀ b, R a b → R a' b) :
    List.Chain' R (a' :: l) := by
  cases l with
  | nil => simp
  | cons b l2 =>
    rw [List.chain'_cons] at h ⊢
    exact ⟨hrep b h.1, h.2⟩

theorem justForest_iff (all : List LocalCallDefinition) (ts : List PTask) :
    JustForest all ts ↔ ∀ t ∈ ts, JustTree all t := by
  induction ts with
  | nil => simp [JustForest]
  | cons t rest ih => simp [JustForest, ih]

theorem justTree_suite_iff (all : List LocalCallDefinition) (n : String) (m : Mode)
    (s e : Nat) (ts : List PTask) :
    JustTree all (.suite n m s e ts) ↔
      ((∀ t ∈ ts, childJust all m t) ∧ ∀ t ∈ ts, JustTree all t) := by
  rw [JustTree]
  simp [justForest_iff]

theorem justTree_test (all : List LocalCallDefinition) (n : String) (m : Mode)
    (s e : Nat) : JustTree all (.test n m s e) := by
  rw [JustTree]
  trivial

theorem closeInto_justInv {all : List LocalCallDefinition} {top parent : Frame}
    {rest : List Frame} (h : JustInv all top (parent :: rest)) :
    JustInv all (closeInto parent top) rest := by
  obtain ⟨hcj, hjt, hch1, hch2⟩ := h
  have hrel1 : parent.mode ≠ "run" → top.mode = parent.mode := (List.chain'_cons.mp hch1).1
  have hrel2 := (List.chain'_cons.mp hch2).1
  have hnode : JustTree all (.suite top.name top.mode top.start top.endO top.tasks) :=
    (justTree_suite_iff _ _ _ _ _ _).mpr
      ⟨hcj top (by simp), fun t ht => hjt top (by simp) t ht⟩
  refine ⟨?_, ?_, ?_, ?_⟩
  · intro f hf t ht
    rcases List.mem_cons.mp hf with rfl | hf
    · simp only [closeInto] at ht
      rcases List.mem_append.mp ht with ht | ht
      · exact hcj parent (by simp) t ht
      · have heq : t = .suite top.name top.mode top.start top.endO top.tasks := by
          simpa using ht
        subst heq
        refine ⟨fun hm => hrel1 hm, fun hm => ?_⟩
        obtain ⟨d, hd, h1, h2, h3, h4⟩ := hrel2
        exact ⟨d, hd, h1, h2, h3, h4 hm⟩
    · exact hcj f (by simp [hf]) t ht
  · intro f hf t ht
    rcases List.mem_cons.mp hf with rfl | hf
    · simp only [closeInto] at ht
      rcases List.mem_append.mp ht with ht | ht
      · exact hjt parent (by simp) t ht
      · have heq : t = .suite top.name top.mode top.start top.endO top.tasks := by
          simpa using ht
        subst heq
        exact hnode
    · exact hjt f (by simp [hf]) t ht
  · exact chain'_replace_head (List.chain'_cons.mp hch1).2 (fun b hb => hb)
  · exact chain'_replace_head (List.chain'_cons.mp hch2).2 (fun b hb => hb)

theorem updateLatestSuite_justInv (all : List LocalCallDefinition) :
    ∀ (ps : List Frame) (top : Frame) (index : Nat), JustInv all top ps →
      JustInv all (updateLatestSuite top ps index).1 (updateLatestSuite top ps index).2 := by
  intro ps
  induction ps with
  | nil => intro top index h; exact h
  | cons parent rest ih =>
    intro top index h
    simp only [updateLatestSuite]
    split
    · exact ih (closeInto parent top) index (closeInto_justInv h)
    · exact h

theorem processDefinition_justInv (all : List LocalCallDefinition)
    (st : Frame × List Frame) (d : LocalCallDefinition) (hd : d ∈ all)
    (h : JustInv all st.1 st.2) :
    JustInv all (processDefinition st d).1 (processDefinition st d).2 := by
  have h1 := updateLatestSuite_justInv all st.2 st.1 d.start h
  rcases hcur : updateLatestSuite st.1 st.2 d.start with ⟨cur, rest⟩
  rw [hcur] at h1
  obtain ⟨hcj, hjt, hch1, hch2⟩ := h1
  simp only [processDefinition, hcur]
  cases d.type
  · refine ⟨?_, ?_, ?_, ?_⟩
    · intro f hf t ht
      rcases List.mem_cons.mp hf with rfl | hf
      · rcases List.mem_append.mp ht with ht | ht
        · exact hcj cur (by simp) t ht
        · have heq : t = .test d.name (if cur.mode ≠ "run" then cur.mode else d.mode)
              d.start d.endO := by simpa using ht
          subst heq
          constructor
          · intro hm
            show (if cur.mode ≠ "run" then cur.mode else d.mode) = cur.mode
            exact if_pos hm
          · intro hm
            refine ⟨d, hd, rfl, rfl, rfl, ?_⟩
            show (if cur.mode ≠ "run" then cur.mode else d.mode) = d.mode
            exact if_neg (fun hne => hne hm)
      · exact hcj f (by simp [hf]) t ht
    · intro f hf t ht
      rcases List.mem_cons.mp hf with rfl | hf
      · rcases List.mem_append.mp ht with ht | ht
        · exact hjt cur (by simp) t ht
        · have heq : t = .test d.name (if cur.mode ≠ "run" then cur.mode else d.mode)
              d.start d.endO := by simpa using ht
          subst heq
          exact justTree_test _ _ _ _ _
      · exact hjt f (by simp [hf]) t ht
    · exact chain'_replace_head hch1 (fun b hb => hb)
    · exact chain'_replace_head hch2 (fun b hb => hb)
  · refine ⟨?_, ?_, ?_, ?_⟩
    · intro f hf t ht
      rcases List.mem_cons.mp hf with rfl | hf
      · simp at ht
      · exact hcj f hf t ht
    · intro f hf t ht
      rcases List.mem_cons.mp hf with rfl | hf
      · simp at ht
      · exact hjt f hf t ht
    · refine List.chain'_cons.mpr ⟨?_, hch1⟩
      intro hm
      show (if cur.mode ≠ "run" then cur.mode else d.mode) = cur.mode
      exact if_pos hm
    · refine List.chain'_cons.mpr ⟨⟨d, hd, rfl, rfl, rfl, ?_⟩, hch2⟩
      intro hm
      show (if cur.mode ≠ "run" then cur.mode else d.mode) = d.mode
      exact if_neg (fun hne => hne hm)

theorem foldl_justInv (all : List LocalCallDefinition) :
    ∀ (rem : List LocalCallDefinition) (st : Frame × List Frame),
      (∀ x ∈ rem, x ∈ all) → JustInv all st.1 st.2 →
      JustInv all (List.foldl processDefinition st rem).1
        (List.foldl processDefinition st rem).2 := by
  intro rem
  induction rem with
  | nil => intro st _ h; exact h
  | cons d ds ih =>
    intro st hmem h
    exact ih (processDefinition st d) (fun x hx => hmem x (List.mem_cons_of_mem d hx))
      (processDefinition_justInv all st d (hmem d (List.mem_cons_self d ds)) h)

theorem closeAll_justInv (all : List LocalCallDefinition) :
    ∀ (ps : List Frame) (top : Frame), JustInv all top ps →
      JustInv all (closeAll top ps) [] := by
  intro ps
  induction ps with
  | nil => intro top h; exact h
  | cons parent rest ih =>
    intro top h
    exact ih (closeInto parent top) (closeInto_justInv h)

theorem justInv_init (all : List LocalCallDefinition) (name : String) (s e : Nat) :
    JustInv all (fileFrame name s e) [] := by
  refine ⟨?_, ?_, by simp, by simp⟩
  · intro f hf t ht
    have heq : f = fileFrame name s e := by simpa using hf
    subst heq
    simp [fileFrame] at ht
  · intro f hf t ht
    have heq : f = fileFrame name s e := by simpa using hf
    subst heq
    simp [fileFrame] at ht

theorem collectTree_justified (name : String) (s e : Nat)
    (defs : List LocalCallDefinition) :
    JustTree defs (collectTree name s e defs) := by
  have hmem : ∀ x ∈ sortDefinitions defs, x ∈ defs := by
    intro x hx
    exact (List.perm_insertionSort _ defs).mem_iff.mp hx
  have hfold := foldl_justInv defs (sortDefinitions defs) (fileFrame name s e, [])
    hmem (justInv_init defs name s e)
  have hfin := closeAll_justInv defs _ _ hfold
  obtain ⟨hcj, hjt, _, _⟩ := hfin
  show JustTree defs (toTask (closeAll _ _))
  rw [toTask, justTree_suite_iff]
  exact ⟨hcj _ (by simp), fun t ht => hjt _ (by simp) t ht⟩

/-- Claim C1: in every built tree, a node whose enclosing suite's resolved
mode is not `run` carries exactly that suite's mode (proved universally via
`forcedAll`); otherwise it keeps its call site's own declared mode — proved
universally via `JustTree`: under every `run`-mode suite each child's
source range and name coincide with a classified call site of the input
whose declared mode is exactly the child's mode.  The concrete instances: a
`.skip` suite containing a `.only` test yields pre-Finalizer test mode
`skip`, and a plain suite containing a `.only` test keeps `only`. -/
theorem C1_tree_mode_resolution :
    (∀ (name : String) (s e : Nat) (defs : List LocalCallDefinition),
      forcedAll (collectTree name s e defs) = true)
  ∧ (∀ (name : String) (s e : Nat) (defs : List LocalCallDefinition),
      JustTree defs (collectTree name s e defs))
  ∧ collectTree "file" 0 100 [⟨1, 20, "s", .suite, "skip"⟩, ⟨5, 15, "t", .test, "only"⟩]
      = .suite "file" "run" 0 100 [.suite "s" "skip" 1 20 [.test "t" "skip" 5 15]]
  ∧ collectTree "file" 0 100 [⟨1, 20, "s", .suite, "run"⟩, ⟨5, 15, "t", .test, "only"⟩]
      = .suite "file" "run" 0 100 [.suite "s" "run" 1 20 [.test "t" "only" 5 15]] :=
  ⟨collectTree_forcedAll, collectTree_justified, rfl, rfl⟩

/-- Counterexample to claim C2: a suite resolved `only` containing a test
declared `.skip` — the builder forces the test's mode to `only` (any
non-`run` suite mode is inherited, `only` included), so the node does not
keep its own declared mode. -/
theorem C2_only_counterexample :
    collectTree "file" 0 100 [⟨1, 20, "s", .suite, "only"⟩, ⟨5, 15, "t", .test, "skip"⟩]
      = .suite "file" "run" 0 100 [.suite "s" "only" 1 20 [.test "t" "only" 5 15]]
  ∧ ("only" : Mode) ≠ "skip" :=
  ⟨rfl, by decide⟩

mutual

theorem forcedAll_imp_onlyForced :
    ∀ t : PTask, forcedAll t = true → onlyForcedAll t = true
  | .test _ _ _ _, _ => rfl
  | .suite n m s e ts, h => by
    rw [forcedAll] at h
    rw [onlyForcedAll]
    simp only [Bool.and_eq_true] at h ⊢
    obtain ⟨h1, h2⟩ := h
    refine ⟨?_, forestForcedAll_imp_onlyForced ts h2⟩
    by_cases hm : m = "only"
    · subst hm
      rcases Bool.or_eq_true_iff.mp h1 with h1 | h1
      · exact absurd h1 (by decide)
      · simp only [Bool.or_eq_true]
        exact Or.inr h1
    · simp only [Bool.or_eq_true]
      left
      simpa [bne_iff_ne] using hm

theorem forestForcedAll_imp_onlyForced :
    ∀ ts : List PTask, forestForcedAll ts = true → forestOnlyForcedAll ts = true
  | [], _ => rfl
  | t :: rest, h => by
    rw [forestForcedAll] at h
    rw [forestOnlyForcedAll]
    simp only [Bool.and_eq_true] at h ⊢
    exact ⟨forcedAll_imp_onlyForced t h.1, forestForcedAll_imp_onlyForced rest h.2⟩

end

/-- Claim C2, amended as the counterexample forces: an `only` suite mode is
inherited by descendants exactly like `skip` and `todo` — in every built
tree each child of a suite whose resolved mode is `only` has mode `only`
(exclusivity is still resolved later, externally, but declared child modes
are not preserved under an `only` parent). -/
theorem C2_amended_only_forced :
    ∀ (name : String) (s e : Nat) (defs : List LocalCallDefinition),
      onlyForcedAll (collectTree name s e defs) = true :=
  fun name s e defs =>
    forcedAll_imp_onlyForced _ (collectTree_forcedAll name s e defs)

theorem siblingsDisjoint_iff (ts : List PTask) :
    siblingsDisjoint ts = true ↔ List.Pairwise (fun a b => tEnd a < tStart b) ts := by
  induction ts with
  | nil => simp [siblingsDisjoint]
  | cons t rest ih =>
    simp [siblingsDisjoint, List.pairwise_cons, ih, List.all_eq_true]

theorem forestWF_iff (ts : List PTask) :
    forestWF ts = true ↔ ∀ t ∈ ts, treeWF t = true := by
  induction ts with
  | nil => simp [forestWF]
  | cons t rest ih => simp [forestWF, ih]

theorem treeWF_suite_iff (n : String) (m : Mode) (s e : Nat) (ts : List PTask) :
    treeWF (.suite n m s e ts) = true ↔
      ((∀ t ∈ ts, s < tStart t ∧ tEnd t < e)
        ∧ List.Pairwise (fun a b => tEnd a < tStart b) ts
        ∧ ∀ t ∈ ts, treeWF t = true) := by
  simp [treeWF, List.all_eq_true, siblingsDisjoint_iff, forestWF_iff]
  tauto

theorem pairwiseB_iff (r : LocalCallDefinition → LocalCallDefinition → Bool) :
    ∀ l : List LocalCallDefinition,
      pairwiseB r l = true ↔ List.Pairwise (fun a b => r a b = true) l := by
  intro l
  induction l with
  | nil => simp [pairwiseB]
  | cons d ds ih => simp [pairwiseB, List.pairwise_cons, ih, List.all_eq_true]

theorem laminarOK_iff (a b : LocalCallDefinition) :
    laminarOK a b = true ↔
      (a.endO < b.start ∨ b.endO < a.start
        ∨ (a.start < b.start ∧ b.endO < a.endO ∧ a.type = .suite)
        ∨ (b.start < a.start ∧ a.endO < b.endO ∧ b.type = .suite)) := by
  simp [laminarOK, Bool.or_eq_true, Bool.and_eq_true, decide_eq_true_iff, and_assoc]
  tauto

theorem laminarOK_symm {a b : LocalCallDefinition} (h : laminarOK a b = true) :
    laminarOK b a = true := by
  rw [laminarOK_iff] at h ⊢
  tauto

theorem pairwise_lt_of_sorted_lam :
    ∀ l : List LocalCallDefinition,
      List.Sorted (fun a b : LocalCallDefinition => a.start ≤ b.start) l →
      List.Pairwise (fun a b => laminarOK a b = true) l →
      (∀ d ∈ l, d.start ≤ d.endO) →
      List.Pairwise (fun a b => a.start < b.start) l := by
  intro l
  induction l with
  | nil => intro _ _ _; exact List.Pairwise.nil
  | cons d ds ih =>
    intro hs hl hb
    rw [List.pairwise_cons] at hl ⊢
    rw [List.sorted_cons] at hs
    refine ⟨?_, ih hs.2 hl.2 fun x hx => hb x (List.mem_cons_of_mem d hx)⟩
    intro b hbmem
    have h1 := hs.1 b hbmem
    have h2 := (laminarOK_iff d b).mp (hl.1 b hbmem)
    have h3 := hb d (List.mem_cons_self d ds)
    have h4 := hb b (List.mem_cons_of_mem d hbmem)
    rcases h2 with h2 | h2 | h2 | h2 <;> omega

/-- Counterexample to claim C5: the well-formed source
`it('a', () => { it('b', f) })` classifies two call sites with nested
ranges, both tests; the builder attaches both to the file root as siblings,
and their ranges overlap (the second is contained in the first), so the
range invariant fails on a tree produced from a well-formed AST. -/
theorem C5_range_counterexample :
    treeWF (collectTree "file" 0 100
      [⟨10, 50, "a", .test, "run"⟩, ⟨20, 30, "b", .test, "run"⟩]) = false := by
  rfl

theorem stackBotEnd_eq_of_endO {top top' : Frame} (rest : List Frame)
    (h : top'.endO = top.endO) : stackBotEnd top' rest = stackBotEnd top rest := by
  cases rest with
  | nil => exact h
  | cons q r => rfl

theorem stackBotEnd_cons (top parent : Frame) (rest : List Frame) :
    stackBotEnd top (parent :: rest) = stackBotEnd parent rest := rfl

theorem closeInto_buildInv {top parent : Frame} {rest : List Frame}
    {rem : List LocalCallDefinition}
    (h : BuildInv top (parent :: rest) rem)
    (hend : ∀ d ∈ rem, top.endO < d.start) :
    BuildInv (closeInto parent top) rest rem := by
  obtain ⟨hchain, hin, hord, hwf, hgap, hrtasks, hrframes, hroot, hsorted, hlam, hbounds⟩ := h
  have hrel : parent.start < top.start ∧ top.endO < parent.endO := (List.chain'_cons.mp hchain).1
  have hgaprel : ∀ t ∈ parent.tasks, tEnd t < top.start := (List.chain'_cons.mp hgap).1
  have hnodeWF : treeWF (.suite top.name top.mode top.start top.endO top.tasks) = true :=
    (treeWF_suite_iff _ _ _ _ _).mpr
      ⟨hin top (by simp), hord top (by simp), hwf top (by simp)⟩
  refine ⟨?_, ?_, ?_, ?_, ?_, ?_, ?_, ?_, hsorted, hlam, hbounds⟩
  · exact chain'_replace_head (List.chain'_cons.mp hchain).2 (fun b hb => hb)
  · intro f hf t ht
    rcases List.mem_cons.mp hf with rfl | hf
    · simp only [closeInto] at ht
      rcases List.mem_append.mp ht with ht | ht
      · exact hin parent (by simp) t ht
      · have heq : t = .suite top.name top.mode top.start top.endO top.tasks := by
          simpa using ht
        subst heq
        exact ⟨hrel.1, hrel.2⟩
    · exact hin f (by simp [hf]) t ht
  · intro f hf
    rcases List.mem_cons.mp hf with rfl | hf
    · show List.Pairwise _ (parent.tasks ++ [_])
      rw [List.pairwise_append]
      refine ⟨hord parent (by simp), by simp, ?_⟩
      intro a ha b hb
      have hb' : b = .suite top.name top.mode top.start top.endO top.tasks := by
        simpa using hb
      subst hb'
      exact hgaprel a ha
    · exact hord f (by simp [hf])
  · intro f hf t ht
    rcases List.mem_cons.mp hf with rfl | hf
    · simp only [closeInto] at ht
      rcases List.mem_append.mp ht with ht | ht
      · exact hwf parent (by simp) t ht
      · have heq : t = .suite top.name top.mode top.start top.endO top.tasks := by
          simpa using ht
        subst heq
        exact hnodeWF
    · exact hwf f (by simp [hf]) t ht
  · exact chain'_replace_head (List.chain'_cons.mp hgap).2 (fun b hb => hb)
  · intro x hx f hf t ht
    rcases List.mem_cons.mp hf with rfl | hf
    · simp only [closeInto] at ht
      rcases List.mem_append.mp ht with ht | ht
      · exact hrtasks x hx parent (by simp) t ht
      · have heq : t = .suite top.name top.mode top.start top.endO top.tasks := by
          simpa using ht
        subst heq
        exact hend x hx
    · exact hrtasks x hx f (by simp [hf]) t ht
  · intro x hx f hf hle
    rcases List.mem_cons.mp hf with rfl | hf
    · exact hrframes x hx parent (by simp) hle
    · exact hrframes x hx f (by simp [hf]) hle
  · intro x hx
    have h1 := hroot x hx
    rw [stackBotEnd_cons] at h1
    rw [show stackBotEnd (closeInto parent top) rest = stackBotEnd parent rest from
      stackBotEnd_eq_of_endO rest rfl]
    exact h1

theorem updateLatestSuite_buildInv :
    ∀ (ps : List Frame) (top : Frame) (d : LocalCallDefinition)
      (rem' : List LocalCallDefinition),
      BuildInv top ps (d :: rem') →
      BuildInv (updateLatestSuite top ps d.start).1
        (updateLatestSuite top ps d.start).2 (d :: rem') := by
  intro ps
  induction ps with
  | nil => intro top d rem' h; exact h
  | cons parent rest ih =>
    intro top d rem' h
    simp only [updateLatestSuite]
    split
    next hpop =>
      apply ih (closeInto parent top) d rem'
      apply closeInto_buildInv h
      intro x hx
      rcases List.mem_cons.mp hx with rfl | hx
      · exact hpop
      · have := (List.pairwise_cons.mp h.remSorted).1 x hx
        omega
    · exact h

theorem processDefinition_buildInv (st : Frame × List Frame) (d : LocalCallDefinition)
    (rem' : List LocalCallDefinition) (h : BuildInv st.1 st.2 (d :: rem')) :
    BuildInv (processDefinition st d).1 (processDefinition st d).2 rem' := by
  have h1 := updateLatestSuite_buildInv st.2 st.1 d rem' h
  rcases hcur : updateLatestSuite st.1 st.2 d.start with ⟨cur, rest⟩
  rw [hcur] at h1
  obtain ⟨hchain, hin, hord, hwf, hgap, hrtasks, hrframes, hroot, hsorted, hlam, hbounds⟩ := h1
  have hstop := updateLatestSuite_stops st.2 st.1 d.start
  rw [hcur] at hstop
  have hstop' : rest = [] ∨ d.start ≤ cur.endO := hstop
  have hdmem : d ∈ d :: rem' := List.mem_cons_self d rem'
  have hdcur : d.start ≤ cur.endO := by
    rcases hstop' with hnil | hle
    · subst hnil
      have := hroot d hdmem
      simpa [stackBotEnd] using this
    · exact hle
  have hcont : cur.start < d.start ∧ d.endO < cur.endO :=
    hrframes d hdmem cur (by simp) hdcur
  have htasksend : ∀ t ∈ cur.tasks, tEnd t < d.start := hrtasks d hdmem cur (by simp)
  have hsort2 : ∀ x ∈ rem', d.start < x.start := (List.pairwise_cons.mp hsorted).1
  have hlam2 : ∀ x ∈ rem', laminarOK d x = true := (List.pairwise_cons.mp hlam).1
  have hnewend : d.type = DefType.test → ∀ x ∈ rem', d.endO < x.start := by
    intro ht x hx
    have h2 := (laminarOK_iff d x).mp (hlam2 x hx)
    have h3 := hsort2 x hx
    have h4 := hbounds x (List.mem_cons_of_mem d hx)
    rcases h2 with h2 | h2 | h2 | h2
    · exact h2
    · omega
    · rcases h2 with ⟨_, _, he⟩
      rw [ht] at he
      exact absurd he (by decide)
    · omega
  have hsuitenests : d.type = DefType.suite →
      ∀ x ∈ rem', x.start ≤ d.endO → d.start < x.start ∧ x.endO < d.endO := by
    intro _ x hx hxle
    have h2 := (laminarOK_iff d x).mp (hlam2 x hx)
    have h3 := hsort2 x hx
    have h4 := hbounds x (List.mem_cons_of_mem d hx)
    rcases h2 with h2 | h2 | h2 | h2
    · omega
    · omega
    · exact ⟨h2.1, h2.2.1⟩
    · omega
  simp only [processDefinition, hcur]
  cases htype : d.type
  · -- test: append a test node to the cursor's children
    refine ⟨?_, ?_, ?_, ?_, ?_, ?_, ?_, ?_, List.Pairwise.of_cons hsorted,
      List.Pairwise.of_cons hlam, fun x hx => hbounds x (List.mem_cons_of_mem d hx)⟩
    · exact chain'_replace_head hchain (fun b hb => hb)
    · intro f hf t ht
      rcases List.mem_cons.mp hf with rfl | hf
      · rcases List.mem_append.mp ht with ht | ht
        · exact hin cur (by simp) t ht
        · have heq : t = .test d.name (if cur.mode ≠ "run" then cur.mode else d.mode)
              d.start d.endO := by simpa using ht
          subst heq
          exact ⟨hcont.1, hcont.2⟩
      · exact hin f (by simp [hf]) t ht
    · intro f hf
      rcases List.mem_cons.mp hf with rfl | hf
      · show List.Pairwise _ (cur.tasks ++ [_])
        rw [List.pairwise_append]
        refine ⟨hord cur (by simp), by simp, ?_⟩
        intro a ha b hb
        have hb' : b = .test d.name (if cur.mode ≠ "run" then cur.mode else d.mode)
            d.start d.endO := by simpa using hb
        subst hb'
        exact htasksend a ha
      · exact hord f (by simp [hf])
    · intro f hf t ht
      rcases List.mem_cons.mp hf with rfl | hf
      · rcases List.mem_append.mp ht with ht | ht
        · exact hwf cur (by simp) t ht
        · have heq : t = .test d.name (if cur.mode ≠ "run" then cur.mode else d.mode)
              d.start d.endO := by simpa using ht
          subst heq
          rfl
      · exact hwf f (by simp [hf]) t ht
    · exact chain'_replace_head hgap (fun b hb => hb)
    · intro x hx f hf t ht
      rcases List.mem_cons.mp hf with rfl | hf
      · rcases List.mem_append.mp ht with ht | ht
        · exact hrtasks x (List.mem_cons_of_mem d hx) cur (by simp) t ht
        · have heq : t = .test d.name (if cur.mode ≠ "run" then cur.mode else d.mode)
              d.start d.endO := by simpa using ht
          subst heq
          exact hnewend htype x hx
      · exact hrtasks x (List.mem_cons_of_mem d hx) f (by simp [hf]) t ht
    · intro x hx f hf hle
      rcases List.mem_cons.mp hf with rfl | hf
      · exact hrframes x (List.mem_cons_of_mem d hx) cur (by simp) hle
      · exact hrframes x (List.mem_cons_of_mem d hx) f (by simp [hf]) hle
    · intro x hx
      have he : stackBotEnd
          { cur with tasks := cur.tasks ++
            [PTask.test d.name (if cur.mode ≠ "run" then cur.mode else d.mode) d.start d.endO] }
          rest = stackBotEnd cur rest :=
        stackBotEnd_eq_of_endO rest rfl
      exact le_of_le_of_eq (hroot x (List.mem_cons_of_mem d hx)) he.symm
  · -- suite: push a fresh frame for the new suite
    refine ⟨?_, ?_, ?_, ?_, ?_, ?_, ?_, ?_, List.Pairwise.of_cons hsorted,
      List.Pairwise.of_cons hlam, fun x hx => hbounds x (List.mem_cons_of_mem d hx)⟩
    · exact List.chain'_cons.mpr ⟨⟨hcont.1, hcont.2⟩, hchain⟩
    · intro f hf t ht
      rcases List.mem_cons.mp hf with rfl | hf
      · simp at ht
      · exact hin f hf t ht
    · intro f hf
      rcases List.mem_cons.mp hf with rfl | hf
      · exact List.Pairwise.nil
      · exact hord f hf
    · intro f hf t ht
      rcases List.mem_cons.mp hf with rfl | hf
      · simp at ht
      · exact hwf f hf t ht
    · exact List.chain'_cons.mpr ⟨fun t ht => htasksend t ht, hgap⟩
    · intro x hx f hf t ht
      rcases List.mem_cons.mp hf with rfl | hf
      · simp at ht
      · exact hrtasks x (List.mem_cons_of_mem d hx) f hf t ht
    · intro x hx f hf hle
      rcases List.mem_cons.mp hf with rfl | hf
      · exact hsuitenests htype x hx hle
      · exact hrframes x (List.mem_cons_of_mem d hx) f hf hle
    · intro x hx
      show x.start ≤ stackBotEnd
        ⟨d.name, if cur.mode ≠ "run" then cur.mode else d.mode, d.start, d.endO, []⟩
        (cur :: rest)
      exact le_of_le_of_eq (hroot x (List.mem_cons_of_mem d hx))
        (stackBotEnd_cons _ cur rest).symm

theorem foldl_buildInv :
    ∀ (defs : List LocalCallDefinition) (st : Frame × List Frame),
      BuildInv st.1 st.2 defs →
      BuildInv (List.foldl processDefinition st defs).1
        (List.foldl processDefinition st defs).2 [] := by
  intro defs
  induction defs with
  | nil => intro st h; exact h
  | cons d ds ih =>
    intro st h
    exact ih (processDefinition st d) (processDefinition_buildInv st d ds h)

theorem closeAll_buildInv :
    ∀ (ps : List Frame) (top : Frame), BuildInv top ps [] →
      BuildInv (closeAll top ps) [] [] := by
  intro ps
  induction ps with
  | nil => intro top h; exact h
  | cons parent rest ih =>
    intro top h
    exact ih (closeInto parent top)
      (closeInto_buildInv h (fun x hx => absurd hx (List.not_mem_nil x)))

theorem buildInv_init (name : String) (s e : Nat) (defs : List LocalCallDefinition)
    (hin : ∀ d ∈ defs, s < d.start ∧ d.endO < e ∧ d.start ≤ d.endO)
    (hsorted : List.Pairwise (fun a b => a.start < b.start) defs)
    (hlam : List.Pairwise (fun a b => laminarOK a b = true) defs) :
    BuildInv (fileFrame name s e) [] defs := by
  refine ⟨by simp, ?_, ?_, ?_, by simp, ?_, ?_, ?_, hsorted, hlam,
    fun x hx => (hin x hx).2.2⟩
  · intro f hf t ht
    have heq : f = fileFrame name s e := by simpa using hf
    subst heq
    simp [fileFrame] at ht
  · intro f hf
    have heq : f = fileFrame name s e := by simpa using hf
    subst heq
    exact List.Pairwise.nil
  · intro f hf t ht
    have heq : f = fileFrame name s e := by simpa using hf
    subst heq
    simp [fileFrame] at ht
  · intro x hx f hf t ht
    have heq : f = fileFrame name s e := by simpa using hf
    subst heq
    simp [fileFrame] at ht
  · intro x hx f hf _
    have heq : f = fileFrame name s e := by simpa using hf
    subst heq
    exact ⟨(hin x hx).1, (hin x hx).2.1⟩
  · intro x hx
    have h1 := hin x hx
    show x.start ≤ stackBotEnd (fileFrame name s e) []
    have h2 : stackBotEnd (fileFrame name s e) [] = e := rfl
    omega

/-- Claim C5, amended as the counterexample forces: the range invariant —
each non-root node's range strictly inside its parent's, sibling ranges
pairwise disjoint — holds of every built tree whose input call sites are
pairwise laminar (disjoint or strictly nested with the outer one a suite,
ruling out declarations nested inside a test's range), strictly inside the
file's range, and well-ordered. -/
theorem C5_amended_range_invariant :
    ∀ (name : String) (s e : Nat) (defs : List LocalCallDefinition),
      defsWellFormed s e defs = true →
      treeWF (collectTree name s e defs) = true := by
  intro name s e defs hwf
  simp only [defsWellFormed, Bool.and_eq_true, List.all_eq_true] at hwf
  obtain ⟨hall, hpw⟩ := hwf
  have hin : ∀ x ∈ defs, s < x.start ∧ x.endO < e ∧ x.start ≤ x.endO := by
    intro x hx
    have := hall x hx
    simp only [Bool.and_eq_true, decide_eq_true_iff] at this
    tauto
  have hlam : List.Pairwise (fun a b => laminarOK a b = true) defs :=
    (pairwiseB_iff _ defs).mp hpw
  have hperm : List.Perm (sortDefinitions defs) defs := List.perm_insertionSort _ defs
  have hlam2 : List.Pairwise (fun a b => laminarOK a b = true) (sortDefinitions defs) :=
    (hperm.pairwise_iff (fun hab => laminarOK_symm hab)).mpr hlam
  have hin2 : ∀ x ∈ sortDefinitions defs, s < x.start ∧ x.endO < e ∧ x.start ≤ x.endO :=
    fun x hx => hin x (hperm.mem_iff.mp hx)
  have hsorted : List.Sorted (fun a b : LocalCallDefinition => a.start ≤ b.start)
      (sortDefinitions defs) := by
    haveI : IsTotal LocalCallDefinition (fun a b => a.start ≤ b.start) :=
      ⟨fun a b => Nat.le_total _ _⟩
    haveI : IsTrans LocalCallDefinition (fun a b => a.start ≤ b.start) :=
      ⟨fun a b c h1 h2 => Nat.le_trans h1 h2⟩
    exact List.sorted_insertionSort _ defs
  have hlt : List.Pairwise (fun a b => a.start < b.start) (sortDefinitions defs) :=
    pairwise_lt_of_sorted_lam _ hsorted hlam2 (fun x hx => (hin2 x hx).2.2)
  have hinit := buildInv_init name s e (sortDefinitions defs) hin2 hlt hlam2
  have hfold := foldl_buildInv (sortDefinitions defs) (fileFrame name s e, []) hinit
  have hfin := closeAll_buildInv _ _ hfold
  show treeWF (toTask (closeAll _ _)) = true
  rw [toTask, treeWF_suite_iff]
  exact ⟨hfin.childIn _ (by simp), hfin.childOrd _ (by simp), hfin.childWF _ (by simp)⟩

/-- Witness for the amended C5 at a well-formed concrete input: a suite
containing two disjoint tests. -/
theorem C5_amended_range_invariant_witness :
    defsWellFormed 0 100
      [⟨10, 90, "s", .suite, "run"⟩, ⟨20, 30, "a", .test, "run"⟩,
       ⟨40, 50, "b", .test, "run"⟩] = true
  ∧ treeWF (collectTree "file" 0 100
      [⟨10, 90, "s", .suite, "run"⟩, ⟨20, 30, "a", .test, "run"⟩,
       ⟨40, 50, "b", .test, "run"⟩]) = true :=
  ⟨by decide, C5_amended_range_invariant "file" 0 100 _ (by decide)⟩

end VitestCollect
